import Mathlib

/-!
Shallow embedding of the hierarchy-flattening core of `src/app.py`
(`build_hierarchy` and `hierarchy_select`), together with theorems
settling the frozen claims about it.

Modelling conventions:
* A pandas cell that may be NaN/absent is an `Option`; `none` is NaN.
* Rows whose `code` is NaN are dropped (`df.dropna(subset=["code"])`).
* `code_map` (first occurrence per code) is `List.find?` on the row list.
* The taxonomy sheets expose the columns `code`, `parent_code`, `title`,
  `is_leaf` (see spec section 6), so the dictionary lookups
  `row.get("title", "")` and `row.get("is_leaf", 0)` always find the key;
  a NaN cell is what the defaults interact with (`NaN == 1` is false,
  and `.get` returns the NaN itself, not the default).
* The recursion of `dfs` is bounded: it only recurses while
  `len(path) < max_levels`, so a fuel argument equal to
  `max_levels - len(path)` makes the traversal structural; the fuel-0
  case coincides with the depth-cap emission branch, which is forced
  exactly when the fuel is 0.
-/

namespace LOMap

/-- One row of a taxonomy sheet (`TaxonomyRow` in the spec). -/
structure TaxonomyRow where
  code : Option String
  parent_code : Option String
  title : Option String
  is_leaf : Option Bool
  category : Option String
deriving DecidableEq, Repr

/-- `if category: df = df[df["category"] == category]` -/
def filterCategory (category : Option String) (rows : List TaxonomyRow) : List TaxonomyRow :=
  match category with
  | some c => rows.filter (fun r => decide (r.category = some c))
  | none => rows

/-- `df = df.dropna(subset=["code"])` -/
def dropNoCode (rows : List TaxonomyRow) : List TaxonomyRow :=
  rows.filter (fun r => r.code.isSome)

/-- The dataframe the builder works on after the category filter and
`dropna`. -/
def prepRows (rows : List TaxonomyRow) (category : Option String) : List TaxonomyRow :=
  dropNoCode (filterCategory category rows)

/-- `code_map[c]`: the first row whose `code` is `c`
(`df.drop_duplicates(subset="code").set_index("code")`). -/
def codeRow (df : List TaxonomyRow) (c : String) : Option TaxonomyRow :=
  df.find? (fun r => decide (r.code = some c))

/-- `children[c]`: codes of all rows (duplicates included) whose
`parent_code` is `c`, in dataframe order. -/
def childrenOf (df : List TaxonomyRow) (c : String) : List String :=
  (df.filter (fun r => decide (r.parent_code = some c))).filterMap (fun r => r.code)

/-- `df[df["parent_code"].isna()]["code"]`. -/
def rootsOf (df : List TaxonomyRow) : List String :=
  (df.filter (fun r => decide (r.parent_code = none))).filterMap (fun r => r.code)

/-- `row.get("is_leaf", 0) == 1` on a boolean `is_leaf` column
(NaN compares unequal to 1). -/
def isLeafFlag (r : TaxonomyRow) : Bool :=
  r.is_leaf.getD false

/-- Membership in the computed leaf set: the code has a (first-occurrence)
row and `row.get("is_leaf", 0) == 1 or not children.get(code)`. -/
def inLeaves (df : List TaxonomyRow) (c : String) : Bool :=
  match codeRow df c with
  | some r => isLeafFlag r || (childrenOf df c).isEmpty
  | none => false

/-- `code_map[c].get("title", "")`, with the title column present:
the cell itself (possibly NaN = `none`). -/
def titleOf (df : List TaxonomyRow) (c : String) : Option String :=
  (codeRow df c).bind (fun r => r.title)

/-- `code_map[c].get("parent_code")` through the first-occurrence map. -/
def parentOf (df : List TaxonomyRow) (c : String) : Option String :=
  (codeRow df c).bind (fun r => r.parent_code)

/-- The recursive `dfs` of `build_hierarchy`, with an explicit fuel
argument; called with `fuel = m - path.length` (or anything at least
that), it behaves exactly like the source recursion, because the fuel
can only run out when `m <= len(path)` and then the depth-cap branch
emits the very same singleton. -/
def dfsF (df : List TaxonomyRow) (m : Nat) : Nat → String → List String → List (List String)
  | 0, code, path => [path ++ [code]]
  | fuel + 1, code, path =>
    if inLeaves df code = true ∨ m ≤ (path ++ [code]).length then [path ++ [code]]
    else (childrenOf df code).flatMap (fun child => dfsF df m fuel child (path ++ [code]))

/-- `dfs(code, path)` as called from the top level. -/
def dfs (df : List TaxonomyRow) (m : Nat) (code : String) (path : List String) :
    List (List String) :=
  dfsF df m m code path

/-- The `paths` list accumulated by `for root in roots: dfs(root, [])`. -/
def allPaths (df : List TaxonomyRow) (m : Nat) : List (List String) :=
  (rootsOf df).flatMap (fun r => dfs df m r [])

/-- One output row: the `(LevelI_Code, LevelI_Title)` pairs in order plus
the `Leaf_Code` / `Leaf_Title` columns. -/
structure FlatRecord where
  levels : List (String × Option String)
  Leaf_Code : String
  Leaf_Title : Option String
deriving DecidableEq, Repr

/-- Materialisation of one emitted path into a record. -/
def recordOfPath (df : List TaxonomyRow) (p : List String) : FlatRecord :=
  { levels := p.map (fun c => (c, titleOf df c))
    Leaf_Code := p.getLastD ""
    Leaf_Title := titleOf df (p.getLastD "") }

/-- `build_hierarchy(df, max_levels, category)`. -/
def build_hierarchy (rows : List TaxonomyRow) (m : Nat) (category : Option String) :
    List FlatRecord :=
  (allPaths (prepRows rows category) m).map (recordOfPath (prepRows rows category))

/-! ### The selector (`hierarchy_select`) -/

/-- The result dictionary of `hierarchy_select`. -/
structure SelectionResult where
  code : String
  title : Option String
  combined : String
deriving DecidableEq, Repr

/-- The all-empty sentinel `{"code": "", "title": "", "combined": ""}`. -/
def emptySelection : SelectionResult :=
  { code := "", title := "", combined := "" }

/-- Python string interpolation of a cell (NaN prints as `nan`). -/
def pyStr : Option String → String
  | some s => s
  | none => "nan"

/-- The cell of record `r` in column `Level k _Title` (1-based `k`):
NaN both when the path is shorter than `k` and when the title itself
is NaN. -/
def cellTitle (r : FlatRecord) (k : Nat) : Option String :=
  (r.levels[k - 1]?).bind (fun pr => pr.2)

/-- Longest path length among the records: the number of
`Level*_Title` columns of the flattened dataframe. -/
def maxPathLen (recs : List FlatRecord) : Nat :=
  recs.foldr (fun r acc => max r.levels.length acc) 0

/-- The 1-based indices of the `Level*_Title` columns, in increasing
depth order. -/
def levelIndices (recs : List FlatRecord) : List Nat :=
  List.range' 1 (maxPathLen recs)

/-- First-occurrence de-duplication (`pandas.Series.unique`). -/
def dedupAux : List String → List String → List String
  | _, [] => []
  | seen, a :: as =>
    if a ∈ seen then dedupAux seen as else a :: dedupAux (a :: seen) as

/-- `unique().tolist()` on a column already stripped of NaN. -/
def dedupKeepFirst (l : List String) : List String :=
  dedupAux [] l

/-- `sorted(...)` on strings (lexicographic). -/
def sortStr (l : List String) : List String :=
  List.insertionSort (fun a b => a ≤ b) l

/-- `sorted(filtered_df[level].dropna().unique().tolist())`. -/
def optionsAt (cands : List FlatRecord) (k : Nat) : List String :=
  sortStr (dedupKeepFirst (cands.filterMap (fun r => cellTitle r k)))

/-- The level loop of `hierarchy_select`: the `chooser` plays the role of
`st.selectbox` (given the level index and the option list it returns the
chosen title).  An empty option list breaks out of the loop. -/
def narrow (chooser : Nat → List String → String) :
    List FlatRecord → List Nat → List FlatRecord
  | cands, [] => cands
  | cands, k :: ks =>
    let opts := optionsAt cands k
    if opts.isEmpty then cands
    else narrow chooser
      (cands.filter (fun r => decide (cellTitle r k = some (chooser k opts)))) ks

/-- `hierarchy_select(label, flat_df)` (the label only decorates the UI). -/
def hierarchy_select (chooser : Nat → List String → String) (flat : List FlatRecord) :
    SelectionResult :=
  match narrow chooser flat (levelIndices flat) with
  | [] => emptySelection
  | r :: _ =>
    { code := r.Leaf_Code
      title := r.Leaf_Title
      combined := r.Leaf_Code ++ " – " ++ pyStr r.Leaf_Title }

/-- The user who always picks the first (default) option of each
selectbox. -/
def firstChoice : Nat → List String → String :=
  fun _ opts => opts.headD ""

/-! ### Auxiliary notions used by the claims -/

/-- `code` values of the dataframe are pairwise distinct. -/
def uniqueCodes (df : List TaxonomyRow) : Prop :=
  (df.filterMap (fun r => r.code)).Nodup

instance (df : List TaxonomyRow) : Decidable (uniqueCodes df) :=
  inferInstanceAs (Decidable (List.Nodup _))

/-- One parent/child step of the hierarchy graph. -/
def childStep (df : List TaxonomyRow) (a b : String) : Prop :=
  b ∈ childrenOf df a

instance (df : List TaxonomyRow) (a b : String) : Decidable (childStep df a b) :=
  inferInstanceAs (Decidable (b ∈ childrenOf df a))

/-- Executable decision procedure for `Chain' (childStep df)` (the
instance Mathlib derives by tactics does not reduce in the kernel). -/
instance childStepChainDecidable (df : List TaxonomyRow) :
    ∀ l : List String, Decidable (List.Chain' (childStep df) l)
  | [] => isTrue List.chain'_nil
  | [a] => isTrue (List.chain'_singleton a)
  | a :: b :: rest =>
    match inferInstanceAs (Decidable (childStep df a b)),
        childStepChainDecidable df (b :: rest) with
    | isTrue h1, isTrue h2 => isTrue (List.chain'_cons.mpr ⟨h1, h2⟩)
    | isFalse h1, _ => isFalse (fun h => h1 (List.chain'_cons.mp h).1)
    | _, isFalse h2 => isFalse (fun h => h2 (List.chain'_cons.mp h).2)

/-- A root-to-`x` chain in the parent/child graph. -/
def rootChain (df : List TaxonomyRow) (l : List String) : Prop :=
  l ≠ [] ∧ l.headD "" ∈ rootsOf df ∧ List.Chain' (childStep df) l

instance (df : List TaxonomyRow) (l : List String) : Decidable (rootChain df l) :=
  inferInstanceAs (Decidable (_ ∧ _ ∧ _))

/-- The parent chain starting at `c` reaches a parentless row (or a code
with no row) within `fuel` steps. -/
def parentChainStops (df : List TaxonomyRow) : Nat → String → Bool
  | 0, _ => false
  | fuel + 1, c =>
    match parentOf df c with
    | none => true
    | some p => parentChainStops df fuel p

/-- Acyclicity of the parent links: every code's parent chain terminates. -/
def acyclicB (df : List TaxonomyRow) : Bool :=
  (df.filterMap (fun r => r.code)).all (fun c => parentChainStops df (df.length + 1) c)

/-- The input reduced to only the first row per `code` (rows without a
code are kept; they are dropped later anyway). -/
def firstPerCodeAux : List String → List TaxonomyRow → List TaxonomyRow
  | _, [] => []
  | seen, r :: rs =>
    match r.code with
    | none => r :: firstPerCodeAux seen rs
    | some c =>
      if c ∈ seen then firstPerCodeAux seen rs
      else r :: firstPerCodeAux (c :: seen) rs

def firstPerCode (rows : List TaxonomyRow) : List TaxonomyRow :=
  firstPerCodeAux [] rows

/-- The per-row leaf-set condition asserted by the spec: the row's code is
in the leaf set iff its own `is_leaf` flag is truthy or its code has no
children. -/
def leafClaimB (df : List TaxonomyRow) (r : TaxonomyRow) : Bool :=
  match r.code with
  | none => true
  | some c => inLeaves df c == (isLeafFlag r || (childrenOf df c).isEmpty)

/-- Modelled from the spec: the option set the spec describes for a
selector level, namely the sorted distinct NON-EMPTY titles at that
column (the code instead keeps empty strings and only drops NaN). -/
def specOptionsAt (cands : List FlatRecord) (k : Nat) : List String :=
  sortStr (dedupKeepFirst
    (((cands.filterMap (fun r => cellTitle r k))).filter (fun s => !(s == ""))))


/-! ### Concrete inputs used by witnesses and counterexamples -/

def rowsC1x : List TaxonomyRow :=
  [ ⟨some "A", none, none, some false, none⟩
  , ⟨some "A", none, none, some true, none⟩
  , ⟨some "B", some "A", none, none, none⟩ ]

def rowsC1w : List TaxonomyRow :=
  [ ⟨some "A", none, some "Root", some false, none⟩
  , ⟨some "B", some "A", some "b", some true, none⟩ ]

def rowsC2x : List TaxonomyRow :=
  [ ⟨some "A", none, some "Root", some true, none⟩
  , ⟨some "B", some "A", some "Child", some true, none⟩ ]

def rowsC2w : List TaxonomyRow :=
  [ ⟨some "A", none, some "Root", some false, none⟩
  , ⟨some "A1", some "A", some "Child1", some true, none⟩
  , ⟨some "A2", some "A", some "Child2", some true, none⟩ ]

def rowsC3x : List TaxonomyRow :=
  [ ⟨some "A", none, some "Root", none, none⟩
  , ⟨some "B", some "A", some "b", some true, none⟩
  , ⟨some "B", some "A", some "b2", some true, none⟩ ]

def rowsC4x : List TaxonomyRow :=
  [ ⟨some "A", none, some "Root", none, none⟩
  , ⟨some "B", some "A", some "T", some true, none⟩
  , ⟨some "C", some "A", some "T", some true, none⟩ ]

def rowsC4w : List TaxonomyRow :=
  [ ⟨some "A", none, some "Root", some true, none⟩ ]

def rowsC5x : List TaxonomyRow :=
  [ ⟨some "A", none, some "t", some true, none⟩ ]

def rowsC5w : List TaxonomyRow :=
  [ ⟨some "A", none, some "t", some true, none⟩ ]

def rowsC6w : List TaxonomyRow :=
  [ ⟨some "A", none, some "Root", some false, none⟩
  , ⟨some "B", some "A", some "b", some true, none⟩ ]

def rowsC7x : List TaxonomyRow :=
  [ ⟨some "A", none, none, some true, none⟩ ]

def rowsC7w : List TaxonomyRow :=
  [ ⟨some "A", none, some "t", some true, none⟩ ]

def rowsC8x : List TaxonomyRow :=
  [ ⟨some "A", none, some "", some true, none⟩ ]

def rowsC9w : List TaxonomyRow :=
  [ ⟨some "A", some "Z", some "t", none, none⟩ ]

def rowsC10x : List TaxonomyRow :=
  [ ⟨some "A", none, none, none, none⟩
  , ⟨some "B", some "A", none, none, none⟩ ]

def rowsC10w : List TaxonomyRow :=
  [ ⟨some "A", none, some "Root", none, none⟩
  , ⟨some "B", some "A", some "b", some true, none⟩ ]

/-- The invariant of the tail of an emitted path starting at (1-based)
position `n + 1`: all entries but the last are non-leaves sitting
strictly below the depth cap, and the last entry is a leaf or sits at
the cap. -/
def pathInv (df : List TaxonomyRow) (m : Nat) : Nat → List String → Prop
  | _, [] => True
  | n, [c] => inLeaves df c = true ∨ m ≤ n + 1
  | n, c :: c2 :: rest =>
    inLeaves df c = false ∧ n + 1 < m ∧ pathInv df m (n + 1) (c2 :: rest)

/-! ### Lemmas about the traversal -/

theorem dfsF_shape (df : List TaxonomyRow) (m : Nat) :
    ∀ (fuel : Nat) (code : String) (path p : List String),
      p ∈ dfsF df m fuel code path → ∃ s, p = path ++ code :: s := by
  intro fuel
  induction fuel with
  | zero =>
    intro code path p hp
    simp only [dfsF, List.mem_singleton] at hp
    exact ⟨[], by simp [hp]⟩
  | succ k ih =>
    intro code path p hp
    rw [dfsF] at hp
    split at hp
    · simp only [List.mem_singleton] at hp
      exact ⟨[], by simp [hp]⟩
    · rw [List.mem_flatMap] at hp
      obtain ⟨child, _, hp2⟩ := hp
      obtain ⟨s, hs⟩ := ih child (path ++ [code]) p hp2
      exact ⟨child :: s, by simp [hs]⟩

theorem dfsF_sound (df : List TaxonomyRow) (m : Nat) :
    ∀ (fuel : Nat) (code : String) (path p : List String),
      m ≤ path.length + fuel → p ∈ dfsF df m fuel code path →
      ∃ s, p = path ++ code :: s ∧ List.Chain' (childStep df) (code :: s) ∧
        pathInv df m path.length (code :: s) := by
  intro fuel
  induction fuel with
  | zero =>
    intro code path p h hp
    simp only [dfsF, List.mem_singleton] at hp
    refine ⟨[], by simp [hp], List.chain'_singleton _, ?_⟩
    simp only [pathInv]
    right
    omega
  | succ k ih =>
    intro code path p h hp
    rw [dfsF] at hp
    split at hp
    case isTrue hcond =>
      simp only [List.mem_singleton] at hp
      refine ⟨[], by simp [hp], List.chain'_singleton _, ?_⟩
      simpa [pathInv] using hcond
    case isFalse hcond =>
      rw [List.mem_flatMap] at hp
      obtain ⟨child, hc, hp2⟩ := hp
      obtain ⟨s, hps, hchain, hinv⟩ :=
        ih child (path ++ [code]) p (by simp; omega) hp2
      push_neg at hcond
      refine ⟨child :: s, by simp [hps], ?_, ?_⟩
      · exact List.chain'_cons.mpr ⟨hc, hchain⟩
      · simp only [pathInv]
        have h1 : inLeaves df code = false := by
          cases hcode : inLeaves df code
          · rfl
          · exact absurd hcode hcond.1
        have h2 : path.length + 1 < m := by
          have h3 := hcond.2
          simp only [List.length_append, List.length_cons, List.length_nil,
            not_le] at h3
          omega
        refine ⟨h1, h2, ?_⟩
        simpa using hinv

theorem dfsF_complete (df : List TaxonomyRow) (m : Nat) :
    ∀ (s : List String) (fuel : Nat) (code : String) (path : List String),
      m ≤ path.length + fuel →
      List.Chain' (childStep df) (code :: s) →
      pathInv df m path.length (code :: s) →
      path ++ code :: s ∈ dfsF df m fuel code path := by
  intro s
  induction s with
  | nil =>
    intro fuel code path _ _ hinv
    cases fuel with
    | zero => simp [dfsF]
    | succ k =>
      rw [dfsF, if_pos]
      · simp
      · simpa [pathInv] using hinv
  | cons b s2 ih =>
    intro fuel code path hf hchain hinv
    simp only [pathInv] at hinv
    obtain ⟨hnl, hlt, hinv2⟩ := hinv
    cases fuel with
    | zero => omega
    | succ k =>
      rw [dfsF, if_neg]
      · rw [List.mem_flatMap]
        rw [List.chain'_cons] at hchain
        refine ⟨b, hchain.1, ?_⟩
        have hmem := ih k b (path ++ [code]) (by simp; omega) hchain.2
          (by simpa using hinv2)
        simpa using hmem
      · simp [hnl]
        omega

theorem pathInv_length (df : List TaxonomyRow) (m : Nat) :
    ∀ (t : List String) (n : Nat), pathInv df m n t → n + t.length ≤ max m (n + 1) := by
  intro t
  induction t with
  | nil =>
    intro n _
    simp only [List.length_nil]
    omega
  | cons c rest ih =>
    intro n hinv
    cases rest with
    | nil =>
      simp only [List.length_cons, List.length_nil]
      omega
    | cons b rest2 =>
      simp only [pathInv] at hinv
      obtain ⟨_, hlt, hinv2⟩ := hinv
      have h3 := ih (n + 1) hinv2
      simp only [List.length_cons] at h3 ⊢
      omega

theorem childrenOf_sublist (df : List TaxonomyRow) (c : String) :
    (childrenOf df c).Sublist (df.filterMap (fun r => r.code)) :=
  List.Sublist.filterMap _ (List.filter_sublist df)

theorem rootsOf_sublist (df : List TaxonomyRow) :
    (rootsOf df).Sublist (df.filterMap (fun r => r.code)) :=
  List.Sublist.filterMap _ (List.filter_sublist df)

theorem childrenOf_nodup {df : List TaxonomyRow} (hU : uniqueCodes df) (c : String) :
    (childrenOf df c).Nodup :=
  hU.sublist (childrenOf_sublist df c)

theorem rootsOf_nodup {df : List TaxonomyRow} (hU : uniqueCodes df) :
    (rootsOf df).Nodup :=
  hU.sublist (rootsOf_sublist df)

theorem dfsF_nodup {df : List TaxonomyRow} {m : Nat} (hU : uniqueCodes df) :
    ∀ (fuel : Nat) (code : String) (path : List String),
      (dfsF df m fuel code path).Nodup := by
  intro fuel
  induction fuel with
  | zero => intro code path; simp [dfsF]
  | succ k ih =>
    intro code path
    rw [dfsF]
    split
    · simp
    · rw [List.nodup_flatMap]
      refine ⟨fun child _ => ih child (path ++ [code]), ?_⟩
      refine (childrenOf_nodup hU code).imp ?_
      intro a b hab p hpa hpb
      obtain ⟨s1, h1⟩ := dfsF_shape df m k a (path ++ [code]) p hpa
      obtain ⟨s2, h2⟩ := dfsF_shape df m k b (path ++ [code]) p hpb
      apply hab
      have h3 : a :: s1 = b :: s2 := List.append_cancel_left (h1.symm.trans h2)
      exact (List.cons_eq_cons.mp h3).1

theorem allPaths_nodup {df : List TaxonomyRow} {m : Nat} (hU : uniqueCodes df) :
    (allPaths df m).Nodup := by
  unfold allPaths
  rw [List.nodup_flatMap]
  refine ⟨fun r _ => dfsF_nodup hU m r [], ?_⟩
  refine (rootsOf_nodup hU).imp ?_
  intro a b hab p hpa hpb
  obtain ⟨s1, h1⟩ := dfsF_shape df m m a [] p hpa
  obtain ⟨s2, h2⟩ := dfsF_shape df m m b [] p hpb
  simp only [List.nil_append] at h1 h2
  apply hab
  exact (List.cons_eq_cons.mp (h1.symm.trans h2)).1

/-! ### First-occurrence lookup under unique codes -/

theorem codeRow_eq_of_mem :
    ∀ {df : List TaxonomyRow} {r : TaxonomyRow} {c : String},
      uniqueCodes df → r ∈ df → r.code = some c → codeRow df c = some r := by
  intro df
  induction df with
  | nil => intro r c _ hr; cases hr
  | cons x xs ih =>
    intro r c hU hr hc
    have hU2 : uniqueCodes xs := by
      unfold uniqueCodes at hU ⊢
      cases hx : x.code with
      | none => rwa [List.filterMap_cons_none hx] at hU
      | some cx =>
        rw [List.filterMap_cons_some hx] at hU
        exact hU.of_cons
    cases hr with
    | head =>
      unfold codeRow
      rw [List.find?_cons_of_pos _ (by simp [hc])]
    | tail _ hmem =>
      have hxc : ¬ x.code = some c := by
        intro hx
        unfold uniqueCodes at hU
        rw [List.filterMap_cons_some hx] at hU
        exact (List.nodup_cons.mp hU).1 (List.mem_filterMap.mpr ⟨r, hmem, hc⟩)
      unfold codeRow
      rw [List.find?_cons_of_neg _ (by simpa using hxc)]
      exact ih hU2 hmem hc

theorem parentOf_eq_none_of_root {df : List TaxonomyRow} {c : String}
    (hU : uniqueCodes df) (hc : c ∈ rootsOf df) : parentOf df c = none := by
  unfold rootsOf at hc
  rw [List.mem_filterMap] at hc
  obtain ⟨r, hr, hrc⟩ := hc
  rw [List.mem_filter] at hr
  obtain ⟨hrdf, hp⟩ := hr
  unfold parentOf
  rw [codeRow_eq_of_mem hU hrdf hrc]
  simpa using hp

theorem parentOf_eq_some_of_child {df : List TaxonomyRow} {b c : String}
    (hU : uniqueCodes df) (hc : c ∈ childrenOf df b) : parentOf df c = some b := by
  unfold childrenOf at hc
  rw [List.mem_filterMap] at hc
  obtain ⟨r, hr, hrc⟩ := hc
  rw [List.mem_filter] at hr
  obtain ⟨hrdf, hp⟩ := hr
  unfold parentOf
  rw [codeRow_eq_of_mem hU hrdf hrc]
  simpa using hp

theorem exists_append_singleton_of_ne_nil {l : List String} (h : l ≠ []) :
    ∃ t b, l = t ++ [b] := by
  rcases l.eq_nil_or_concat with rfl | ⟨t, b, hl⟩
  · cases h rfl
  · exact ⟨t, b, by simpa using hl⟩

theorem headD_append_of_ne_nil {l l2 : List String} (h : l ≠ []) (d : String) :
    (l ++ l2).headD d = l.headD d := by
  cases l with
  | nil => cases h rfl
  | cons x xt => rfl

/-! ### Uniqueness of root chains -/

theorem rootChain_unique {df : List TaxonomyRow} (hU : uniqueCodes df) :
    ∀ l1 l2 : List String, rootChain df l1 → rootChain df l2 →
      l1.getLast? = l2.getLast? → l1 = l2 := by
  intro l1
  induction l1 using List.reverseRecOn with
  | nil => intro l2 h1 _ _; exact absurd rfl h1.1
  | append_singleton t1 c ih =>
    intro l2 h1 h2 hlast
    obtain ⟨t2, c2, rfl⟩ := exists_append_singleton_of_ne_nil h2.1
    rw [List.getLast?_concat, List.getLast?_concat] at hlast
    have hc2 : c = c2 := Option.some.inj hlast
    subst hc2
    rcases eq_or_ne t1 [] with rfl | ht1
    · -- l1 = [c]: c is a root
      have hcr : c ∈ rootsOf df := by simpa [rootChain] using h1.2.1
      rcases eq_or_ne t2 [] with rfl | ht2
      · rfl
      obtain ⟨t2p, b2, rfl⟩ := exists_append_singleton_of_ne_nil ht2
      · -- but c is also a child of b2
        exfalso
        obtain ⟨_, _, hchain2⟩ := h2
        rw [List.chain'_append] at hchain2
        have hstep : childStep df b2 c := by
          refine hchain2.2.2 b2 ?_ c ?_ <;> simp
        have hn := parentOf_eq_none_of_root hU hcr
        have hs := parentOf_eq_some_of_child hU hstep
        rw [hn] at hs
        exact Option.noConfusion hs
    · obtain ⟨t1p, b1, rfl⟩ := exists_append_singleton_of_ne_nil ht1
      rcases eq_or_ne t2 [] with rfl | ht2
      · -- l2 = [c]: c is a root but also a child of b1
        exfalso
        have hcr : c ∈ rootsOf df := by simpa [rootChain] using h2.2.1
        obtain ⟨_, _, hchain1⟩ := h1
        rw [List.chain'_append] at hchain1
        have hstep : childStep df b1 c := by
          refine hchain1.2.2 b1 ?_ c ?_ <;> simp
        have hn := parentOf_eq_none_of_root hU hcr
        have hs := parentOf_eq_some_of_child hU hstep
        rw [hn] at hs
        exact Option.noConfusion hs
      · -- both have a predecessor: it is the unique parent of c
        obtain ⟨t2p, b2, rfl⟩ := exists_append_singleton_of_ne_nil ht2
        obtain ⟨_, hhead1, hchain1⟩ := h1
        obtain ⟨_, hhead2, hchain2⟩ := h2
        rw [List.chain'_append] at hchain1 hchain2
        have hstep1 : childStep df b1 c := by
          refine hchain1.2.2 b1 ?_ c ?_ <;> simp
        have hstep2 : childStep df b2 c := by
          refine hchain2.2.2 b2 ?_ c ?_ <;> simp
        have hb : b1 = b2 := by
          have hs1 := parentOf_eq_some_of_child hU hstep1
          have hs2 := parentOf_eq_some_of_child hU hstep2
          rw [hs1] at hs2
          exact Option.some.inj hs2
        subst hb
        have hrc1 : rootChain df (t1p ++ [b1]) :=
          ⟨by simp, by rwa [headD_append_of_ne_nil (by simp)] at hhead1, hchain1.1⟩
        have hrc2 : rootChain df (t2p ++ [b1]) :=
          ⟨by simp, by rwa [headD_append_of_ne_nil (by simp)] at hhead2, hchain2.1⟩
        have := ih (t2p ++ [b1]) hrc1 hrc2
          (by rw [List.getLast?_concat, List.getLast?_concat])
        rw [this]

/-! ### allPaths: soundness, completeness, uniqueness -/

theorem allPaths_sound {df : List TaxonomyRow} {m : Nat} {p : List String}
    (hp : p ∈ allPaths df m) : rootChain df p ∧ pathInv df m 0 p := by
  unfold allPaths dfs at hp
  rw [List.mem_flatMap] at hp
  obtain ⟨r, hr, hp2⟩ := hp
  obtain ⟨s, hps, hchain, hinv⟩ :=
    dfsF_sound df m m r [] p (by simp) hp2
  simp only [List.nil_append] at hps
  subst hps
  exact ⟨⟨by simp, by simpa using hr, hchain⟩, by simpa using hinv⟩

theorem allPaths_complete {df : List TaxonomyRow} {m : Nat} {l : List String}
    (hc : rootChain df l) (hinv : pathInv df m 0 l) : l ∈ allPaths df m := by
  obtain ⟨hne, hhead, hchain⟩ := hc
  obtain ⟨r, s, rfl⟩ := List.exists_cons_of_ne_nil hne
  unfold allPaths dfs
  rw [List.mem_flatMap]
  refine ⟨r, by simpa using hhead, ?_⟩
  have := dfsF_complete df m s m r [] (by simp) hchain (by simpa using hinv)
  simpa using this

theorem allPaths_ne_nil {df : List TaxonomyRow} {m : Nat} {p : List String}
    (hp : p ∈ allPaths df m) : p ≠ [] :=
  (allPaths_sound hp).1.1

theorem allPaths_last_unique {df : List TaxonomyRow} {m : Nat} {p q : List String}
    (hU : uniqueCodes df) (hp : p ∈ allPaths df m) (hq : q ∈ allPaths df m)
    (h : p.getLast? = q.getLast?) : p = q :=
  rootChain_unique hU p q (allPaths_sound hp).1 (allPaths_sound hq).1 h

/-! ### pathInv introduction and elimination -/

theorem getLastD_irrel {l : List String} (hl : l ≠ []) (d1 d2 : String) :
    l.getLastD d1 = l.getLastD d2 := by
  obtain ⟨t, b, rfl⟩ := exists_append_singleton_of_ne_nil hl
  rw [List.getLastD_eq_getLast?, List.getLastD_eq_getLast?, List.getLast?_concat]
  rfl

theorem pathInv_intro (df : List TaxonomyRow) (m : Nat) :
    ∀ (t : List String) (n : Nat), t ≠ [] → n + t.length ≤ m →
      (∀ i, i + 1 < t.length → inLeaves df (t.getD i "") = false) →
      inLeaves df (t.getLastD "") = true →
      pathInv df m n t := by
  intro t
  induction t with
  | nil => intro n h; cases h rfl
  | cons c rest ih =>
    intro n _ hlen hmid hlast
    cases rest with
    | nil =>
      simp only [pathInv]
      left
      simpa using hlast
    | cons b rest2 =>
      simp only [pathInv]
      refine ⟨?_, ?_, ?_⟩
      · simpa using hmid 0 (by simp)
      · simp only [List.length_cons] at hlen
        omega
      · refine ih (n + 1) (by simp) (by simp only [List.length_cons] at hlen ⊢; omega)
          (fun i hi => ?_) ?_
        · have := hmid (i + 1) (by simp only [List.length_cons] at hi ⊢; omega)
          simpa using this
        · rw [← getLastD_irrel (l := b :: rest2) (by simp) c ""]
          simpa [List.getLastD] using hlast

theorem pathInv_elim (df : List TaxonomyRow) (m : Nat) :
    ∀ (t : List String) (n : Nat), pathInv df m n t →
      (∀ i, i + 1 < t.length → inLeaves df (t.getD i "") = false ∧ n + 1 + i < m) ∧
      (t ≠ [] → (inLeaves df (t.getLastD "") = true ∨ m ≤ n + t.length)) := by
  intro t
  induction t with
  | nil =>
    intro n _
    exact ⟨fun i hi => by simp at hi, fun h => absurd rfl h⟩
  | cons c rest ih =>
    intro n hinv
    cases rest with
    | nil =>
      refine ⟨fun i hi => by simp at hi, fun _ => ?_⟩
      simp only [pathInv] at hinv
      simpa using hinv
    | cons b rest2 =>
      simp only [pathInv] at hinv
      obtain ⟨hnl, hlt, hinv2⟩ := hinv
      have hrec := ih (n + 1) hinv2
      refine ⟨fun i hi => ?_, fun _ => ?_⟩
      · cases i with
        | zero => simpa using ⟨hnl, hlt⟩
        | succ j =>
          have := hrec.1 j (by simp only [List.length_cons] at hi ⊢; omega)
          refine ⟨by simpa using this.1, by omega⟩
      · have := hrec.2 (by simp)
        rcases this with h | h
        · left
          rw [← getLastD_irrel (l := b :: rest2) (by simp) c ""] at h
          simpa [List.getLastD] using h
        · right
          simp only [List.length_cons] at h ⊢
          omega

/-! ### Generic helpers -/

theorem eq_singleton_of_nodup_mem {α : Type} {xs : List α} {a : α}
    (hnd : xs.Nodup) (ha : a ∈ xs) (huniq : ∀ b ∈ xs, b = a) : xs = [a] := by
  cases xs with
  | nil => cases ha
  | cons x xt =>
    have hx : x = a := huniq x (List.mem_cons_self x xt)
    subst hx
    cases xt with
    | nil => rfl
    | cons y yt =>
      exfalso
      have hy : y = x := huniq y (by simp)
      rw [List.nodup_cons] at hnd
      exact hnd.1 (by simp [hy])

/-! ### De-duplication and sorting -/

theorem mem_dedupAux : ∀ (l seen : List String) (a : String),
    a ∈ dedupAux seen l ↔ a ∈ l ∧ a ∉ seen := by
  intro l
  induction l with
  | nil => intro seen a; simp [dedupAux]
  | cons b bs ih =>
    intro seen a
    simp only [dedupAux]
    split
    case isTrue hb =>
      rw [ih]
      simp only [List.mem_cons]
      constructor
      · rintro ⟨h1, h2⟩
        exact ⟨Or.inr h1, h2⟩
      · rintro ⟨h1 | h1, h2⟩
        · subst h1; exact absurd hb h2
        · exact ⟨h1, h2⟩
    case isFalse hb =>
      simp only [List.mem_cons, ih, not_or]
      constructor
      · rintro (rfl | ⟨h1, h2, h3⟩)
        · exact ⟨Or.inl rfl, hb⟩
        · exact ⟨Or.inr h1, h3⟩
      · rintro ⟨rfl | h1, h2⟩
        · exact Or.inl rfl
        · by_cases hab : a = b
          · exact Or.inl hab
          · exact Or.inr ⟨h1, hab, h2⟩

theorem nodup_dedupAux : ∀ (l seen : List String), (dedupAux seen l).Nodup := by
  intro l
  induction l with
  | nil => intro seen; simp [dedupAux]
  | cons b bs ih =>
    intro seen
    simp only [dedupAux]
    split
    · exact ih seen
    · rw [List.nodup_cons]
      refine ⟨?_, ih (b :: seen)⟩
      intro hmem
      rw [mem_dedupAux] at hmem
      exact hmem.2 (by simp)

theorem mem_dedupKeepFirst (l : List String) (a : String) :
    a ∈ dedupKeepFirst l ↔ a ∈ l := by
  unfold dedupKeepFirst
  rw [mem_dedupAux]
  simp

theorem nodup_dedupKeepFirst (l : List String) : (dedupKeepFirst l).Nodup :=
  nodup_dedupAux l []

theorem mem_sortStr (l : List String) (a : String) : a ∈ sortStr l ↔ a ∈ l :=
  (List.perm_insertionSort _ l).mem_iff

theorem nodup_sortStr {l : List String} (h : l.Nodup) : (sortStr l).Nodup :=
  ((List.perm_insertionSort _ l).nodup_iff).mpr h

theorem sorted_sortStr (l : List String) :
    (sortStr l).Sorted (fun a b : String => a ≤ b) :=
  List.sorted_insertionSort _ l

/-! ### First-occurrence reduction of the input -/

theorem find?_cons_code_neg {r : TaxonomyRow} {c : String} (rs : List TaxonomyRow)
    (h : ¬ r.code = some c) :
    List.find? (fun r2 => decide (r2.code = some c)) (r :: rs) =
      List.find? (fun r2 => decide (r2.code = some c)) rs := by
  rw [List.find?_cons_of_neg]
  simpa using h

theorem find?_cons_code_pos {r : TaxonomyRow} {c : String} (rs : List TaxonomyRow)
    (h : r.code = some c) :
    List.find? (fun r2 => decide (r2.code = some c)) (r :: rs) = some r := by
  rw [List.find?_cons_of_pos]
  simpa using h

theorem find?_firstPerCodeAux :
    ∀ (rows : List TaxonomyRow) (seen : List String) (c : String), c ∉ seen →
      (firstPerCodeAux seen rows).find? (fun r => decide (r.code = some c)) =
        rows.find? (fun r => decide (r.code = some c)) := by
  intro rows
  induction rows with
  | nil => intro seen c _; rfl
  | cons r rs ih =>
    intro seen c hc
    cases hr : r.code with
    | none =>
      have hneg : ¬ r.code = some c := by simp [hr]
      simp only [firstPerCodeAux, hr]
      rw [find?_cons_code_neg _ hneg, find?_cons_code_neg _ hneg]
      exact ih seen c hc
    | some c2 =>
      by_cases hcc : c2 = c
      · subst hcc
        simp only [firstPerCodeAux, hr]
        rw [if_neg hc]
        rw [find?_cons_code_pos _ hr, find?_cons_code_pos _ hr]
      · have hneg : ¬ r.code = some c := by simp [hr, hcc]
        simp only [firstPerCodeAux, hr]
        by_cases hseen : c2 ∈ seen
        · rw [if_pos hseen, ih seen c hc, find?_cons_code_neg _ hneg]
        · rw [if_neg hseen]
          rw [find?_cons_code_neg _ hneg, find?_cons_code_neg _ hneg]
          refine ih (c2 :: seen) c ?_
          simp only [List.mem_cons, not_or]
          exact ⟨fun h => hcc h.symm, hc⟩

/-! ### Bounds on the flattened table -/

theorem maxPathLen_le {recs : List FlatRecord} {m : Nat}
    (h : ∀ rec ∈ recs, rec.levels.length ≤ m) : maxPathLen recs ≤ m := by
  induction recs with
  | nil => simp [maxPathLen]
  | cons r rest ih =>
    have h1 := h r (by simp)
    have h2 := ih (fun rec hrec => h rec (by simp [hrec]))
    simp only [maxPathLen, List.foldr_cons] at *
    omega

theorem build_levels_length_le (rows : List TaxonomyRow) (m : Nat)
    (category : Option String) (hm : 1 ≤ m) :
    ∀ rec ∈ build_hierarchy rows m category, rec.levels.length ≤ m := by
  intro rec hrec
  unfold build_hierarchy at hrec
  rw [List.mem_map] at hrec
  obtain ⟨p, hp, rfl⟩ := hrec
  have hinv := (allPaths_sound hp).2
  have hlen := pathInv_length _ m p 0 hinv
  simp only [recordOfPath, List.length_map]
  omega

theorem getLast?_eq_of_getLastD {l : List String} {c : String} (hne : l ≠ [])
    (h : l.getLastD "" = c) : l.getLast? = some c := by
  obtain ⟨t, b, rfl⟩ := exists_append_singleton_of_ne_nil hne
  rw [List.getLastD_eq_getLast?, List.getLast?_concat] at h
  rw [List.getLast?_concat]
  simpa using h

/-! ## Claims -/

/-- Claim C1 (as stated, counterexample): with a duplicated code whose
two occurrences disagree on `is_leaf`, the leaf set is computed from the
first occurrence, so the claimed per-row equivalence fails for the
second occurrence of the filtered, code-bearing input. -/
theorem C1_counterexample :
    ¬ (∀ r ∈ prepRows rowsC1x none, leafClaimB (prepRows rowsC1x none) r = true) := by
  decide

/-- Claim C1 (amended): when codes in the filtered, code-bearing input
are unique, each such row's code is in the computed leaf set iff its own
`is_leaf` flag is truthy (absence treated as false) or the code has no
children in the parent-to-children map. -/
theorem C1_theorem (rows : List TaxonomyRow) (category : Option String)
    (hU : uniqueCodes (prepRows rows category)) :
    ∀ r ∈ prepRows rows category, leafClaimB (prepRows rows category) r = true := by
  intro r hr
  cases hrc : r.code with
  | none => simp [leafClaimB, hrc]
  | some c => simp [leafClaimB, hrc, inLeaves, codeRow_eq_of_mem hU hr hrc]

/-- Witness for C1. -/
theorem C1_witness :
    uniqueCodes (prepRows rowsC1w none) ∧
      ∀ r ∈ prepRows rowsC1w none, leafClaimB (prepRows rowsC1w none) r = true :=
  ⟨by decide, C1_theorem rowsC1w none (by decide)⟩

/-- Claim C2 (as stated, counterexample): codes are unique, links are
acyclic, and "B" is a leaf reachable from root "A" in two hops (within
max_levels = 5), yet no record of the table has Leaf_Code "B": the
traversal stops at the leaf-flagged root "A". -/
theorem C2_counterexample :
    uniqueCodes (prepRows rowsC2x none) ∧
      acyclicB (prepRows rowsC2x none) = true ∧
      rootChain (prepRows rowsC2x none) ["A", "B"] ∧
      (["A", "B"] : List String).getLast? = some "B" ∧
      (["A", "B"] : List String).length ≤ 5 ∧
      inLeaves (prepRows rowsC2x none) "B" = true ∧
      (build_hierarchy rowsC2x 5 none).filter
        (fun rec => decide (rec.Leaf_Code = "B")) = [] := by
  decide

/-- Claim C2 (amended): with unique codes and acyclic parent links, for
every leaf code whose root chain has length at most max_levels and
passes only through non-leaf interior nodes, the table contains exactly
one record with that Leaf_Code, namely the flattening of that unique
chain (graph reachability alone does not suffice: a leaf-flagged
ancestor blocks the traversal, see the counterexample). -/
theorem C2_theorem (rows : List TaxonomyRow) (m : Nat) (category : Option String)
    (l : List String) (c : String)
    (hU : uniqueCodes (prepRows rows category))
    (_hA : acyclicB (prepRows rows category) = true)
    (hchain : rootChain (prepRows rows category) l)
    (hlast : l.getLast? = some c)
    (hlen : l.length ≤ m)
    (hmid : ∀ i, i + 1 < l.length →
      inLeaves (prepRows rows category) (l.getD i "") = false)
    (hleaf : inLeaves (prepRows rows category) c = true) :
    (build_hierarchy rows m category).filter
      (fun rec => decide (rec.Leaf_Code = c)) =
      [recordOfPath (prepRows rows category) l] := by
  have hne : l ≠ [] := hchain.1
  have hlastD : l.getLastD "" = c := by
    rw [List.getLastD_eq_getLast?, hlast]
    rfl
  have hleaf2 : inLeaves (prepRows rows category) (l.getLastD "") = true := by
    rw [hlastD]
    exact hleaf
  have hinv : pathInv (prepRows rows category) m 0 l :=
    pathInv_intro _ m l 0 hne (by omega) hmid hleaf2
  have hmem : l ∈ allPaths (prepRows rows category) m :=
    allPaths_complete hchain hinv
  unfold build_hierarchy
  rw [List.filter_map]
  have hfil : (allPaths (prepRows rows category) m).filter
      ((fun rec => decide (rec.Leaf_Code = c)) ∘
        recordOfPath (prepRows rows category)) = [l] := by
    apply eq_singleton_of_nodup_mem
    · exact (allPaths_nodup hU).filter _
    · rw [List.mem_filter]
      refine ⟨hmem, ?_⟩
      simp [Function.comp, recordOfPath, hlastD, hlast]
    · intro p hp
      rw [List.mem_filter] at hp
      obtain ⟨hpAll, hpred⟩ := hp
      have hplast : p.getLastD "" = c := by
        simpa [Function.comp, recordOfPath] using hpred
      have hpne := allPaths_ne_nil hpAll
      refine allPaths_last_unique hU hpAll hmem ?_
      rw [getLast?_eq_of_getLastD hpne hplast, hlast]
  rw [hfil]
  rfl

/-- Witness for C2. -/
theorem C2_witness :
    uniqueCodes (prepRows rowsC2w none) ∧
      acyclicB (prepRows rowsC2w none) = true ∧
      rootChain (prepRows rowsC2w none) ["A", "A1"] ∧
      (["A", "A1"] : List String).getLast? = some "A1" ∧
      inLeaves (prepRows rowsC2w none) "A1" = true ∧
      (build_hierarchy rowsC2w 5 none).filter
        (fun rec => decide (rec.Leaf_Code = "A1")) =
        [recordOfPath (prepRows rowsC2w none) ["A", "A1"]] :=
  ⟨by decide, by decide, by decide, by decide, by decide,
    C2_theorem rowsC2w 5 none ["A", "A1"] "A1" (by decide) (by decide) (by decide)
      (by decide) (by decide)
      (fun i hi => by
        have h0 : i = 0 := by
          simp only [List.length_cons, List.length_nil] at hi
          omega
        subst h0
        decide)
      (by decide)⟩

/-- Claim C3 (as stated, counterexample): a duplicated code contributes a
second child edge, so the output on the duplicated input (two identical
records) differs from the output on the input reduced to the first row
per code (one record). -/
theorem C3_counterexample :
    build_hierarchy rowsC3x 5 none ≠
      build_hierarchy (firstPerCode rowsC3x) 5 none := by
  decide

/-- Claim C3 (amended): only attribute resolution is first-occurrence:
the code-map lookup (and hence every title) is unchanged by reducing the
input to the first row per code; duplicate occurrences do contribute
extra child edges and root entries, so the flattened output itself need
not coincide (see the counterexample). -/
theorem C3_theorem (rows : List TaxonomyRow) (c : String) :
    codeRow rows c = codeRow (firstPerCode rows) c ∧
      titleOf rows c = titleOf (firstPerCode rows) c := by
  have h := find?_firstPerCodeAux rows [] c (by simp)
  constructor
  · unfold codeRow firstPerCode
    exact h.symm
  · unfold titleOf codeRow firstPerCode
    rw [h]

/-- Claim C4 (as stated, counterexample): two distinct paths sharing all
their titles survive first-option narrowing through every level, so two
candidate rows remain after the level loop. -/
theorem C4_counterexample :
    ¬ ((narrow firstChoice (build_hierarchy rowsC4x 5 none)
        (levelIndices (build_hierarchy rowsC4x 5 none))).length ≤ 1) := by
  decide

/-- Claim C4 (amended): the selector's level loop offers at most
max_levels choices (for a table built with max_levels = m ≥ 1 the list
of level columns has length at most m) and then stops, returning a
single result row or the empty sentinel; but more than one candidate row
may remain when distinct paths share identical title sequences. -/
theorem C4_theorem (rows : List TaxonomyRow) (m : Nat) (category : Option String)
    (hm : 1 ≤ m) :
    (levelIndices (build_hierarchy rows m category)).length ≤ m := by
  unfold levelIndices
  rw [List.length_range']
  exact maxPathLen_le (build_levels_length_le rows m category hm)

/-- Witness for C4. -/
theorem C4_witness :
    1 ≤ 5 ∧ (levelIndices (build_hierarchy rowsC4w 5 none)).length ≤ 5 :=
  ⟨by decide, C4_theorem rowsC4w 5 none (by decide)⟩

/-- Claim C5 (as stated, counterexample): with max_levels = 0 the
traversal still emits the root as a length-1 path, so a record has one
level pair, exceeding max_levels. -/
theorem C5_counterexample :
    ¬ (∀ rec ∈ build_hierarchy rowsC5x 0 none, rec.levels.length ≤ 0) := by
  decide

/-- Claim C5 (amended): for every max_levels value m ≥ 1 (the degenerate
value 0 fails, see the counterexample), no record of the table has more
than m level pairs populated. -/
theorem C5_theorem (rows : List TaxonomyRow) (m : Nat) (category : Option String)
    (hm : 1 ≤ m) :
    ∀ rec ∈ build_hierarchy rows m category, rec.levels.length ≤ m :=
  build_levels_length_le rows m category hm

/-- Witness for C5. -/
theorem C5_witness :
    1 ≤ 5 ∧
      recordOfPath (prepRows rowsC5w none) ["A"] ∈ build_hierarchy rowsC5w 5 none ∧
      (recordOfPath (prepRows rowsC5w none) ["A"]).levels.length ≤ 5 :=
  ⟨by decide, by decide, C5_theorem rowsC5w 5 none (by decide) _ (by decide)⟩

/-- Claim C6 (confirmed): every record's Leaf_Code / Leaf_Title equal the
code and title at its last populated level. -/
theorem C6_theorem (rows : List TaxonomyRow) (m : Nat) (category : Option String) :
    ∀ rec ∈ build_hierarchy rows m category,
      rec.levels.getLast? = some (rec.Leaf_Code, rec.Leaf_Title) := by
  intro rec hrec
  unfold build_hierarchy at hrec
  rw [List.mem_map] at hrec
  obtain ⟨p, hp, rfl⟩ := hrec
  have hne := allPaths_ne_nil hp
  obtain ⟨t, b, rfl⟩ := exists_append_singleton_of_ne_nil hne
  simp [recordOfPath, List.getLast?_concat, List.getLastD_eq_getLast?]

/-- Witness for C6. -/
theorem C6_witness :
    recordOfPath (prepRows rowsC6w none) ["A", "B"] ∈ build_hierarchy rowsC6w 5 none ∧
      (recordOfPath (prepRows rowsC6w none) ["A", "B"]).levels.getLast? =
        some ((recordOfPath (prepRows rowsC6w none) ["A", "B"]).Leaf_Code,
          (recordOfPath (prepRows rowsC6w none) ["A", "B"]).Leaf_Title) :=
  ⟨by decide, C6_theorem rowsC6w 5 none _ (by decide)⟩

/-- Claim C7 (as stated, counterexample): a row with a missing (NaN)
title yields a record whose Leaf_Title is missing, not the empty string:
`code_map[code].get("title", "")` only defaults when the key is absent,
and a NaN cell is present. -/
theorem C7_counterexample :
    ∃ rec ∈ build_hierarchy rowsC7x 5 none,
      rec.Leaf_Title = none ∧ rec.Leaf_Title ≠ some "" := by
  decide

/-- Claim C7 (amended): level titles and the leaf title propagate
verbatim from the first-occurrence row's title cell: a missing title
stays missing in the record (the empty-string default of
`.get("title", "")` applies only when the title column is absent from
the sheet altogether). -/
theorem C7_theorem (rows : List TaxonomyRow) (m : Nat) (category : Option String) :
    ∀ rec ∈ build_hierarchy rows m category,
      (∀ pr ∈ rec.levels, pr.2 = titleOf (prepRows rows category) pr.1) ∧
        rec.Leaf_Title = titleOf (prepRows rows category) rec.Leaf_Code := by
  intro rec hrec
  unfold build_hierarchy at hrec
  rw [List.mem_map] at hrec
  obtain ⟨p, hp, rfl⟩ := hrec
  refine ⟨?_, rfl⟩
  intro pr hpr
  simp only [recordOfPath, List.mem_map] at hpr
  obtain ⟨c0, _, rfl⟩ := hpr
  rfl

/-- Witness for C7. -/
theorem C7_witness :
    recordOfPath (prepRows rowsC7w none) ["A"] ∈ build_hierarchy rowsC7w 5 none ∧
      (recordOfPath (prepRows rowsC7w none) ["A"]).Leaf_Title =
        titleOf (prepRows rowsC7w none)
          (recordOfPath (prepRows rowsC7w none) ["A"]).Leaf_Code :=
  ⟨by decide, (C7_theorem rowsC7w 5 none _ (by decide)).2⟩

/-- Claim C8 (as stated, counterexample): an empty-string title does
appear as an option (the code only drops NaN via dropna), so the option
set differs from the spec's "distinct non-empty titles". -/
theorem C8_counterexample :
    optionsAt (build_hierarchy rowsC8x 5 none) 1 ≠
      specOptionsAt (build_hierarchy rowsC8x 5 none) 1 ∧
      "" ∈ optionsAt (build_hierarchy rowsC8x 5 none) 1 := by
  decide

/-- Claim C8 (amended): at every level the option set is the
lexicographically sorted, duplicate-free list of exactly those titles
that appear non-null in the candidate rows at that column — empty-string
titles included when present. -/
theorem C8_theorem (cands : List FlatRecord) (k : Nat) :
    (optionsAt cands k).Sorted (fun a b : String => a ≤ b) ∧
      (optionsAt cands k).Nodup ∧
      ∀ s : String, s ∈ optionsAt cands k ↔ ∃ r ∈ cands, cellTitle r k = some s := by
  unfold optionsAt
  refine ⟨sorted_sortStr _, nodup_sortStr (nodup_dedupKeepFirst _), fun s => ?_⟩
  rw [mem_sortStr, mem_dedupKeepFirst, List.mem_filterMap]

/-- Claim C9 (confirmed): zero filtered rows or zero roots give an empty
table, and the selector on an empty table offers no levels and returns
the all-empty SelectionResult. -/
theorem C9_theorem (rows : List TaxonomyRow) (m : Nat) (category : Option String)
    (chooser : Nat → List String → String)
    (h : prepRows rows category = [] ∨ rootsOf (prepRows rows category) = []) :
    build_hierarchy rows m category = [] ∧
      hierarchy_select chooser (build_hierarchy rows m category) = emptySelection := by
  have hroots : rootsOf (prepRows rows category) = [] := by
    rcases h with h | h
    · rw [h]
      rfl
    · exact h
  have hb : build_hierarchy rows m category = [] := by
    unfold build_hierarchy allPaths
    rw [hroots]
    rfl
  refine ⟨hb, ?_⟩
  rw [hb]
  rfl

/-- Witness for C9. -/
theorem C9_witness :
    (prepRows rowsC9w none = [] ∨ rootsOf (prepRows rowsC9w none) = []) ∧
      build_hierarchy rowsC9w 5 none = [] ∧
      hierarchy_select firstChoice (build_hierarchy rowsC9w 5 none) = emptySelection :=
  ⟨by decide, C9_theorem rowsC9w 5 none firstChoice (by decide)⟩

/-- Claim C10 (as stated, counterexample): with max_levels = 0 the
traversal emits the non-leaf root as a path of length 1 ≠ 0, so the
stated invariant fails for the degenerate cap. -/
theorem C10_counterexample :
    ∃ p ∈ allPaths (prepRows rowsC10x none) 0,
      ¬ (inLeaves (prepRows rowsC10x none) (p.getLastD "") = true ∨ p.length = 0) := by
  decide

/-- Claim C10 (amended): for max_levels = m ≥ 1, every emitted path ends
in a leaf or has length exactly m, and every non-final entry is a
non-leaf sitting at a 1-based position strictly below m. -/
theorem C10_theorem (rows : List TaxonomyRow) (m : Nat) (category : Option String)
    (p : List String) (hm : 1 ≤ m)
    (hp : p ∈ allPaths (prepRows rows category) m) :
    (inLeaves (prepRows rows category) (p.getLastD "") = true ∨ p.length = m) ∧
      ∀ i, i + 1 < p.length →
        inLeaves (prepRows rows category) (p.getD i "") = false ∧ i + 1 < m := by
  have hs := allPaths_sound hp
  have helim := pathInv_elim _ m p 0 hs.2
  have hlen := pathInv_length _ m p 0 hs.2
  have hne : p ≠ [] := hs.1.1
  constructor
  · rcases helim.2 hne with h | h
    · exact Or.inl h
    · right
      omega
  · intro i hi
    have h2 := helim.1 i hi
    exact ⟨h2.1, by omega⟩

/-- Witness for C10. -/
theorem C10_witness :
    1 ≤ 5 ∧ (["A", "B"] : List String) ∈ allPaths (prepRows rowsC10w none) 5 ∧
      (inLeaves (prepRows rowsC10w none) ((["A", "B"] : List String).getLastD "") = true ∨
        (["A", "B"] : List String).length = 5) :=
  ⟨by decide, by decide,
    (C10_theorem rowsC10w 5 none ["A", "B"] (by decide) (by decide)).1⟩

end LOMap
